import Mathlib

/-!
Shallow embedding of the tilting-platform simulator (`src/src/main.rs`).

Cells, grids and the operations `parse`, `get_load`, `rotate_matrix`,
`tilt_row`, `tilt`, `cycle_brute_force` and `cycle` are translated directly
from the Rust source.  Rust panics (invalid parse characters, out-of-bounds
indexing, `usize` underflow) are modelled by `Option`, with `none` standing
for abnormal termination.
-/

namespace Day14

set_option maxRecDepth 200000

/-- The three cell variants (`TPSpace` in the source). -/
inductive TPSpace where
  | Empty
  | RoundStone
  | SquareStone
deriving DecidableEq, Repr

/-- The four tilt directions. -/
inductive Direction where
  | North
  | West
  | East
  | South
deriving DecidableEq, Repr

/-- A grid is a list of rows of cells (`matrix` field of `TiltingPlatform`). -/
abbrev Mat := List (List TPSpace)

/-- One character of input, as in the `match` inside `TiltingPlatform::parse`;
`none` models the `panic!("Invalid char!")` arm. -/
def parseChar (c : Char) : Option TPSpace :=
  if c = '.' then some TPSpace.Empty
  else if c = '#' then some TPSpace.SquareStone
  else if c = 'O' then some TPSpace.RoundStone
  else none

/-- One line of input: `l.chars().map(...).collect()`, the panic propagating. -/
def parseRow : List Char → Option (List TPSpace)
  | [] => some []
  | c :: cs => (parseChar c).bind fun s => (parseRow cs).map (fun r => s :: r)

/-- `TiltingPlatform::parse`: map every character of every line. -/
def parse : List String → Option Mat
  | [] => some []
  | l :: ls => (parseRow l.toList).bind fun row => (parse ls).map (fun m => row :: m)

/-- `TiltingPlatform::get_load`: rows are enumerated bottom-up, each row
contributes (number of round stones) * (1-based index from the bottom). -/
def get_load (m : Mat) : Nat :=
  (m.reverse.enum.map (fun p => p.2.count TPSpace.RoundStone * (p.1 + 1))).sum

/-- Column `i` of a matrix, top to bottom: `matrix.iter().map(|row| row[i])`.
`row[i]` out of bounds is a panic, modelled by `none`. -/
def colAt : Mat → Nat → Option (List TPSpace)
  | [], _ => some []
  | row :: rest, i =>
      (row[i]?).bind fun x => (colAt rest i).map (fun col => x :: col)

/-- Rows of the quarter-turned matrix for the given column indices. -/
def rot1Go (m : Mat) : List Nat → Option Mat
  | [] => some []
  | i :: is => (colAt m i).bind fun col =>
      (rot1Go m is).map (fun rows => col.reverse :: rows)

/-- The `1 =>` arm of `rotate_matrix` (one clockwise quarter turn): new row
`i` is column `i` of the matrix read bottom-to-top.  `matrix[0]` on an empty
matrix is a panic, modelled by `none`. -/
def rot1 (m : Mat) : Option Mat :=
  match m with
  | [] => none
  | r0 :: _ => rot1Go m (List.range r0.length)

/-- The `2 =>` arm of `rotate_matrix` (half turn): reverse every row, then
reverse the list of rows. -/
def rot2 (m : Mat) : Mat :=
  (m.map List.reverse).reverse

/-- `TiltingPlatform::rotate_matrix`; the `3` arm is the source's
`rotate_matrix(rotate_matrix(matrix, 1), 2)`. -/
def rotate_matrix (m : Mat) (times : Nat) : Option Mat :=
  match times % 4 with
  | 0 => some m
  | 1 => rot1 m
  | 2 => some (rot2 m)
  | _ => (rot1 m).map rot2

/-- Loop body of `TiltingPlatform::tilt_row`: `rounds` and `empties` count
round stones and empties seen since the last square stone, `acc` is the
`new_row` built so far. -/
def tilt_row_go : List TPSpace → Nat → Nat → List TPSpace → List TPSpace
  | [], rounds, empties, acc =>
      acc ++ List.replicate rounds TPSpace.RoundStone
          ++ List.replicate empties TPSpace.Empty
  | TPSpace.Empty :: rest, rounds, empties, acc =>
      tilt_row_go rest rounds (empties + 1) acc
  | TPSpace.RoundStone :: rest, rounds, empties, acc =>
      tilt_row_go rest (rounds + 1) empties acc
  | TPSpace.SquareStone :: rest, _rounds, _empties, acc =>
      tilt_row_go rest 0 0
        (acc ++ List.replicate _rounds TPSpace.RoundStone
             ++ List.replicate _empties TPSpace.Empty
             ++ [TPSpace.SquareStone])

/-- `TiltingPlatform::tilt_row`: compact one row toward index 0. -/
def tilt_row (row : List TPSpace) : List TPSpace :=
  tilt_row_go row 0 0 []

/-- Rotation count used by `tilt` for each direction. -/
def rotationOf : Direction → Nat
  | Direction.West => 0
  | Direction.South => 1
  | Direction.East => 2
  | Direction.North => 3

/-- `TiltingPlatform::tilt`: rotate so the direction becomes "toward column
0", compact every row, rotate back by `4 - rotate`. -/
def tilt (m : Mat) (d : Direction) : Option Mat :=
  (rotate_matrix m (rotationOf d)).bind
    (fun m1 => rotate_matrix (m1.map tilt_row) (4 - rotationOf d))

/-- One spin cycle: tilt North, West, South, East in that order (the inner
`for direction in [...]` loop shared by `cycle` and `cycle_brute_force`). -/
def spin (m : Mat) : Option Mat :=
  (tilt m Direction.North).bind fun a =>
    (tilt a Direction.West).bind fun b =>
      (tilt b Direction.South).bind fun c =>
        tilt c Direction.East

/-- `TiltingPlatform::cycle_brute_force`: apply `spin` exactly `times` times. -/
def cycle_brute_force : Mat → Nat → Option Mat
  | m, 0 => some m
  | m, n + 1 => (spin m).bind (fun m2 => cycle_brute_force m2 n)

/-- Loop of `TiltingPlatform::cycle`.  The first argument is the number of
iterations still to run, so at its entry `times - iteration` of the source
equals `r + 1`.  On a match at index `i` the source returns
`states[i + (times - iteration) % (states.len() - i) - 1]`; when
`i + (times - iteration) % (states.len() - i)` is `0` the `- 1` underflows
`usize` and the program panics, modelled by `none`. -/
def cycleGo : Nat → Mat → List Mat → Option Mat
  | 0, out, _ => some out
  | r + 1, out, states =>
    (spin out).bind (fun out2 =>
      match states.findIdx? (fun s => decide (s = out2)) with
      | some i =>
          let j := i + (r + 1) % (states.length - i)
          if j = 0 then none else states[j - 1]?
      | none => cycleGo r out2 (states ++ [out2]))

/-- `TiltingPlatform::cycle`: loop-accelerated spin cycling, starting from an
empty history. -/
def cycle (m : Mat) (times : Nat) : Option Mat :=
  cycleGo times m []

/-! ### Well-formedness -/

/-- Number of columns, read off the first row. -/
def width (m : Mat) : Nat := (m.headD []).length

/-- A well-formed grid: at least one row, at least one column, all rows of
equal length. -/
def WellFormed (m : Mat) : Prop :=
  m ≠ [] ∧ 0 < width m ∧ ∀ row ∈ m, row.length = width m

instance (m : Mat) : Decidable (WellFormed m) := by
  unfold WellFormed; infer_instance

/-- Cell of a grid at row `i`, column `j` (defaulting to `Empty` outside). -/
def cellAt (m : Mat) (i j : Nat) : TPSpace :=
  (m.getD i []).getD j TPSpace.Empty

/-- A row segment with no square stone in it. -/
def NoSq (s : List TPSpace) : Prop := TPSpace.SquareStone ∉ s

instance (s : List TPSpace) : Decidable (NoSq s) := by
  unfold NoSq
  infer_instance

/-- A packed segment: `a` round stones followed by `b` empties. -/
def packSeg (a b : Nat) : List TPSpace :=
  List.replicate a TPSpace.RoundStone ++ List.replicate b TPSpace.Empty

/-- Rectangularity: every row has length `w`. -/
def RectW (m : Mat) (w : Nat) : Prop := ∀ row ∈ m, row.length = w

/-- The value a successful quarter turn produces: row `i` of the result is
column `i` of the input read bottom-to-top. -/
def rot1c (m : Mat) : Mat :=
  (List.range (width m)).map
    (fun i => (m.map (fun row => row.getD i TPSpace.Empty)).reverse)

/-- The result of `rotate_matrix` for each residue of the turn count. -/
def rotK (m : Mat) : Nat → Mat
  | 0 => m
  | 1 => rot1c m
  | 2 => rot2 m
  | _ => rot2 (rot1c m)

/-- Total number of cells of variant `c` in a grid. -/
def cellCount (c : TPSpace) (m : Mat) : Nat :=
  (m.map (fun row => row.count c)).sum

/-- Column `j` of a grid as a list, top to bottom (`Empty` outside). -/
def colD (m : Mat) (j : Nat) : List TPSpace :=
  m.map (fun row => row.getD j TPSpace.Empty)

/-- The ten input lines of the spec's concrete 10x10 scenario. -/
def exampleLines : List String :=
  ["O....#....", "O.OO#....#", ".....##...", "OO.#O....O", ".O.....O#.",
   "O.#..O.#.#", "..O..#O..O", ".......O..", "#....###..", "#OO..#...."]

/-- The parsed 10x10 example grid of the spec. -/
def exampleGrid : Mat := (parse exampleLines).getD []

/-! ### Row compaction: `tilt_row` -/

theorem tilt_row_go_acc (rest : List TPSpace) :
    ∀ rounds empties acc, tilt_row_go rest rounds empties acc =
      acc ++ tilt_row_go rest rounds empties [] := by
  induction rest with
  | nil => intro r e acc; simp [tilt_row_go]
  | cons x rest ih =>
    intro r e acc
    cases x with
    | Empty => simpa [tilt_row_go] using ih r (e + 1) acc
    | RoundStone => simpa [tilt_row_go] using ih (r + 1) e acc
    | SquareStone =>
      show tilt_row_go rest 0 0 _ = acc ++ tilt_row_go rest 0 0 _
      conv_lhs => rw [ih 0 0]
      conv_rhs => rw [ih 0 0]
      simp [List.append_assoc]

theorem tilt_row_go_length (rest : List TPSpace) :
    ∀ rounds empties acc, (tilt_row_go rest rounds empties acc).length =
      acc.length + rounds + empties + rest.length := by
  induction rest with
  | nil => intro r e acc; simp [tilt_row_go]; omega
  | cons x rest ih =>
    intro r e acc
    cases x <;> simp [tilt_row_go, ih] <;> omega

/-- `tilt_row` preserves the length of a row. -/
theorem tilt_row_length (row : List TPSpace) :
    (tilt_row row).length = row.length := by
  simp [tilt_row, tilt_row_go_length]

theorem tilt_row_go_count (c : TPSpace) (rest : List TPSpace) :
    ∀ rounds empties acc, (tilt_row_go rest rounds empties acc).count c =
      acc.count c + (List.replicate rounds TPSpace.RoundStone).count c
        + (List.replicate empties TPSpace.Empty).count c + rest.count c := by
  induction rest with
  | nil => intro r e acc; simp [tilt_row_go, List.count_append]; omega
  | cons x rest ih =>
    intro r e acc
    cases x <;> cases c <;>
      simp [tilt_row_go, ih, List.count_append, List.count_cons,
        List.count_replicate] <;> omega

/-- `tilt_row` preserves the number of occurrences of every cell variant. -/
theorem tilt_row_count (c : TPSpace) (row : List TPSpace) :
    (tilt_row row).count c = row.count c := by
  cases c <;>
    simp [tilt_row, tilt_row_go_count, List.count_replicate]

theorem noSq_count_partition {seg : List TPSpace} (h : NoSq seg) :
    seg.count TPSpace.RoundStone + seg.count TPSpace.Empty = seg.length := by
  induction seg with
  | nil => simp
  | cons x rest ih =>
    have hx : x ≠ TPSpace.SquareStone := fun hc => h (hc ▸ List.mem_cons_self x rest)
    have hrest : NoSq rest := fun hc => h (List.mem_cons_of_mem x hc)
    have ih2 := ih hrest
    cases x with
    | Empty => simp [List.count_cons]; omega
    | RoundStone => simp [List.count_cons]; omega
    | SquareStone => exact absurd rfl hx

theorem tilt_row_go_noSq {seg : List TPSpace} (h : NoSq seg) :
    ∀ rounds empties acc, tilt_row_go seg rounds empties acc =
      acc ++ List.replicate (rounds + seg.count TPSpace.RoundStone) TPSpace.RoundStone
          ++ List.replicate (empties + seg.count TPSpace.Empty) TPSpace.Empty := by
  induction seg with
  | nil => intro r e acc; simp [tilt_row_go]
  | cons x rest ih =>
    intro r e acc
    have hx : x ≠ TPSpace.SquareStone := fun hc => h (hc ▸ List.mem_cons_self x rest)
    have hrest : NoSq rest := fun hc => h (List.mem_cons_of_mem x hc)
    cases x with
    | Empty =>
      rw [show tilt_row_go (TPSpace.Empty :: rest) r e acc
            = tilt_row_go rest r (e + 1) acc from rfl, ih hrest]
      have h1 : e + 1 + rest.count TPSpace.Empty
          = e + (TPSpace.Empty :: rest).count TPSpace.Empty := by
        simp [List.count_cons]; omega
      have h2 : (TPSpace.Empty :: rest).count TPSpace.RoundStone
          = rest.count TPSpace.RoundStone := by simp [List.count_cons]
      rw [h1, h2]
    | RoundStone =>
      rw [show tilt_row_go (TPSpace.RoundStone :: rest) r e acc
            = tilt_row_go rest (r + 1) e acc from rfl, ih hrest]
      have h1 : r + 1 + rest.count TPSpace.RoundStone
          = r + (TPSpace.RoundStone :: rest).count TPSpace.RoundStone := by
        simp [List.count_cons]; omega
      have h2 : (TPSpace.RoundStone :: rest).count TPSpace.Empty
          = rest.count TPSpace.Empty := by simp [List.count_cons]
      rw [h1, h2]
    | SquareStone => exact absurd rfl hx

/-- On a square-free row, compaction yields all round stones then all
empties: every rock rolls as far as possible toward index 0, stopped only by
rocks already at rest or the row boundary. -/
theorem tilt_row_noSq {seg : List TPSpace} (h : NoSq seg) :
    tilt_row seg =
      List.replicate (seg.count TPSpace.RoundStone) TPSpace.RoundStone
        ++ List.replicate (seg.count TPSpace.Empty) TPSpace.Empty := by
  simpa [tilt_row] using tilt_row_go_noSq h 0 0 []

theorem tilt_row_go_sq {seg : List TPSpace} (h : NoSq seg) (rest : List TPSpace) :
    ∀ rounds empties acc,
      tilt_row_go (seg ++ TPSpace.SquareStone :: rest) rounds empties acc =
        tilt_row_go rest 0 0
          (acc ++ List.replicate (rounds + seg.count TPSpace.RoundStone) TPSpace.RoundStone
               ++ List.replicate (empties + seg.count TPSpace.Empty) TPSpace.Empty
               ++ [TPSpace.SquareStone]) := by
  induction seg with
  | nil => intro r e acc; simp [tilt_row_go]
  | cons x seg ih =>
    intro r e acc
    have hx : x ≠ TPSpace.SquareStone := fun hc => h (hc ▸ List.mem_cons_self x seg)
    have hseg : NoSq seg := fun hc => h (List.mem_cons_of_mem x hc)
    cases x with
    | Empty =>
      rw [show tilt_row_go ((TPSpace.Empty :: seg) ++ TPSpace.SquareStone :: rest) r e acc
            = tilt_row_go (seg ++ TPSpace.SquareStone :: rest) r (e + 1) acc from rfl,
        ih hseg]
      have h1 : e + 1 + seg.count TPSpace.Empty
          = e + (TPSpace.Empty :: seg).count TPSpace.Empty := by
        simp [List.count_cons]; omega
      have h2 : (TPSpace.Empty :: seg).count TPSpace.RoundStone
          = seg.count TPSpace.RoundStone := by simp [List.count_cons]
      rw [h1, h2]
    | RoundStone =>
      rw [show tilt_row_go ((TPSpace.RoundStone :: seg) ++ TPSpace.SquareStone :: rest) r e acc
            = tilt_row_go (seg ++ TPSpace.SquareStone :: rest) (r + 1) e acc from rfl,
        ih hseg]
      have h1 : r + 1 + seg.count TPSpace.RoundStone
          = r + (TPSpace.RoundStone :: seg).count TPSpace.RoundStone := by
        simp [List.count_cons]; omega
      have h2 : (TPSpace.RoundStone :: seg).count TPSpace.Empty
          = seg.count TPSpace.Empty := by simp [List.count_cons]
      rw [h1, h2]
    | SquareStone => exact absurd rfl hx

/-- Compaction acts segment by segment: the part before the first square
stone is packed (rocks, then empties), the square stone stays, and the rest
of the row is compacted independently.  Rocks never cross a square stone. -/
theorem tilt_row_sq {seg : List TPSpace} (h : NoSq seg) (rest : List TPSpace) :
    tilt_row (seg ++ TPSpace.SquareStone :: rest) =
      List.replicate (seg.count TPSpace.RoundStone) TPSpace.RoundStone
        ++ List.replicate (seg.count TPSpace.Empty) TPSpace.Empty
        ++ TPSpace.SquareStone :: tilt_row rest := by
  rw [tilt_row, tilt_row_go_sq h rest 0 0 [], tilt_row_go_acc]
  simp [tilt_row, List.append_assoc]

/-- Every row is square-free or splits at its first square stone. -/
theorem row_decomp (r : List TPSpace) :
    NoSq r ∨ ∃ seg rest, r = seg ++ TPSpace.SquareStone :: rest ∧ NoSq seg := by
  induction r with
  | nil => exact Or.inl (by simp [NoSq])
  | cons x rest ih =>
    by_cases hx : x = TPSpace.SquareStone
    · exact Or.inr ⟨[], rest, by rw [hx]; rfl, by simp [NoSq]⟩
    · rcases ih with hns | ⟨seg, rest', heq, hseg⟩
      · refine Or.inl ?_
        intro hmem
        rcases List.mem_cons.mp hmem with h1 | h2
        · exact hx h1.symm
        · exact hns h2
      · refine Or.inr ⟨x :: seg, rest', by rw [heq]; rfl, ?_⟩
        intro hmem
        rcases List.mem_cons.mp hmem with h1 | h2
        · exact hx h1.symm
        · exact hseg h2

theorem pack_noSq (a b : Nat) : NoSq (packSeg a b) := by
  intro hmem
  rcases List.mem_append.mp hmem with h | h <;>
    exact absurd (List.eq_of_mem_replicate h) (by decide)

theorem pack_count_round (a b : Nat) :
    (packSeg a b).count TPSpace.RoundStone = a := by
  simp [packSeg, List.count_append, List.count_replicate]

theorem pack_count_empty (a b : Nat) :
    (packSeg a b).count TPSpace.Empty = b := by
  simp [packSeg, List.count_append, List.count_replicate]

theorem pack_length (a b : Nat) : (packSeg a b).length = a + b := by
  simp [packSeg]

theorem mem_of_getElem?_some {α : Type} {l : List α} {j : Nat} {a : α}
    (h : l[j]? = some a) : a ∈ l := by
  rcases List.getElem?_eq_some.mp h with ⟨hj, he⟩
  exact he ▸ List.getElem_mem hj

/-- Compacting an already compacted row changes nothing. -/
theorem tilt_row_idem (r : List TPSpace) :
    tilt_row (tilt_row r) = tilt_row r := by
  suffices h : ∀ n r, List.length r ≤ n → tilt_row (tilt_row r) = tilt_row r from
    h r.length r le_rfl
  intro n
  induction n with
  | zero =>
    intro r hr
    have : r = [] := List.eq_nil_of_length_eq_zero (Nat.le_zero.mp hr)
    subst this; rfl
  | succ n ih =>
    intro r hr
    rcases row_decomp r with hns | ⟨seg, rest, heq, hseg⟩
    · rw [tilt_row_noSq hns,
        show List.replicate (r.count TPSpace.RoundStone) TPSpace.RoundStone
            ++ List.replicate (r.count TPSpace.Empty) TPSpace.Empty
          = packSeg (r.count TPSpace.RoundStone) (r.count TPSpace.Empty) from rfl,
        tilt_row_noSq (pack_noSq _ _), pack_count_round, pack_count_empty]
      simp [packSeg]
    · subst heq
      have hlen : rest.length ≤ n := by
        simp [List.length_append] at hr
        omega
      rw [tilt_row_sq hseg,
        show List.replicate (seg.count TPSpace.RoundStone) TPSpace.RoundStone
            ++ List.replicate (seg.count TPSpace.Empty) TPSpace.Empty
            ++ TPSpace.SquareStone :: tilt_row rest
          = packSeg (seg.count TPSpace.RoundStone) (seg.count TPSpace.Empty)
            ++ TPSpace.SquareStone :: tilt_row rest from by simp [packSeg],
        tilt_row_sq (pack_noSq _ _), pack_count_round, pack_count_empty,
        ih rest hlen]
      simp [packSeg]

/-- Compaction never moves a square stone: position `j` of the compacted row
holds a square stone exactly when position `j` of the original row does. -/
theorem tilt_row_sq_pos (r : List TPSpace) (j : Nat) :
    (tilt_row r)[j]? = some TPSpace.SquareStone ↔
      r[j]? = some TPSpace.SquareStone := by
  suffices h : ∀ n r, List.length r ≤ n → ∀ j : Nat,
      ((tilt_row r)[j]? = some TPSpace.SquareStone ↔
        r[j]? = some TPSpace.SquareStone) from h r.length r le_rfl j
  intro n
  induction n with
  | zero =>
    intro r hr j
    have : r = [] := List.eq_nil_of_length_eq_zero (Nat.le_zero.mp hr)
    subst this
    rfl
  | succ n ih =>
    intro r hr j
    rcases row_decomp r with hns | ⟨seg, rest, heq, hseg⟩
    · constructor
      · intro h
        have := mem_of_getElem?_some h
        rw [tilt_row_noSq hns] at this
        exact absurd this (pack_noSq _ _)
      · intro h
        exact absurd (mem_of_getElem?_some h) hns
    · subst heq
      have hlen : rest.length ≤ n := by
        simp [List.length_append] at hr
        omega
      have hpl : (packSeg (seg.count TPSpace.RoundStone)
          (seg.count TPSpace.Empty)).length = seg.length := by
        rw [pack_length, noSq_count_partition hseg]
      rw [tilt_row_sq hseg,
        show List.replicate (seg.count TPSpace.RoundStone) TPSpace.RoundStone
            ++ List.replicate (seg.count TPSpace.Empty) TPSpace.Empty
            ++ TPSpace.SquareStone :: tilt_row rest
          = packSeg (seg.count TPSpace.RoundStone) (seg.count TPSpace.Empty)
            ++ TPSpace.SquareStone :: tilt_row rest from by simp [packSeg]]
      rw [List.getElem?_append, List.getElem?_append, hpl]
      rcases Nat.lt_trichotomy j seg.length with hj | hj | hj
      · simp only [if_pos hj]
        constructor
        · intro h
          exact absurd (mem_of_getElem?_some h) (pack_noSq _ _)
        · intro h
          exact absurd (mem_of_getElem?_some h) hseg
      · subst hj
        simp
      · have h1 : ¬ (j < seg.length) := by omega
        simp only [if_neg h1]
        obtain ⟨k, hk⟩ : ∃ k, j - seg.length = k + 1 := ⟨j - seg.length - 1, by omega⟩
        rw [hk]
        simpa using ih rest hlen k

/-! ### Rotation toolkit -/

theorem getD_map_range {α : Type} (n : Nat) (f : Nat → α) (i : Nat) (d : α) :
    ((List.range n).map f).getD i d = if i < n then f i else d := by
  rw [List.getD_eq_getElem?_getD, List.getElem?_map]
  by_cases h : i < n
  · rw [List.getElem?_range h]
    simp [h]
  · rw [List.getElem?_eq_none (by simpa using Nat.le_of_not_lt h)]
    simp [h]

theorem getD_reverse {α : Type} (l : List α) (j : Nat) (d : α)
    (h : j < l.length) :
    l.reverse.getD j d = l.getD (l.length - 1 - j) d := by
  rw [List.getD_eq_getElem?_getD, List.getD_eq_getElem?_getD,
    List.getElem?_reverse h]

theorem getD_map' {α β : Type} (l : List α) (f : α → β) (k : Nat) (d : β)
    (d' : α) (h : k < l.length) :
    (l.map f).getD k d = f (l.getD k d') := by
  rw [List.getD_eq_getElem?_getD, List.getD_eq_getElem?_getD, List.getElem?_map,
    List.getElem?_eq_getElem h]
  simp

theorem getD_out {α : Type} (l : List α) (k : Nat) (d : α)
    (h : l.length ≤ k) : l.getD k d = d := by
  rw [List.getD_eq_getElem?_getD, List.getElem?_eq_none h]
  rfl

theorem width_eq {m : Mat} {w : Nat} (hw : RectW m w) (hne : m ≠ []) :
    width m = w := by
  cases m with
  | nil => exact absurd rfl hne
  | cons r rest => exact hw r (List.mem_cons_self r rest)

theorem colAt_eq {m : Mat} (i : Nat) (h : ∀ row ∈ m, i < row.length) :
    colAt m i = some (m.map (fun row => row.getD i TPSpace.Empty)) := by
  induction m with
  | nil => rfl
  | cons row rest ih =>
    have hi : i < row.length := h row (List.mem_cons_self row rest)
    have hrest := ih (fun r hr => h r (List.mem_cons_of_mem row hr))
    simp [colAt, List.getElem?_eq_getElem hi, hrest,
      List.getD_eq_getElem?_getD, List.getElem?_eq_getElem hi]

theorem rot1Go_eq {m : Mat} {w : Nat} (hw : RectW m w) (is : List Nat)
    (his : ∀ i ∈ is, i < w) :
    rot1Go m is = some (is.map
      (fun i => (m.map (fun row => row.getD i TPSpace.Empty)).reverse)) := by
  induction is with
  | nil => rfl
  | cons i is ih =>
    have hi : ∀ row ∈ m, i < row.length := fun r hr =>
      (hw r hr).symm ▸ his i (List.mem_cons_self i is)
    have hrest := ih (fun k hk => his k (List.mem_cons_of_mem i hk))
    simp [rot1Go, colAt_eq i hi, hrest]

/-- On a non-empty rectangular matrix the quarter-turn arm succeeds and
produces `rot1c`. -/
theorem rot1_eq {m : Mat} {w : Nat} (hw : RectW m w) (hne : m ≠ []) :
    rot1 m = some (rot1c m) := by
  cases m with
  | nil => exact absurd rfl hne
  | cons r0 rest =>
    have hr0 : r0.length = w := hw r0 (List.mem_cons_self r0 rest)
    have hwidth : width (r0 :: rest) = r0.length := rfl
    rw [rot1, rot1c, hwidth, rot1Go_eq hw (List.range r0.length)
      (fun i hi => hr0 ▸ List.mem_range.mp hi)]

theorem rot1c_length (m : Mat) : (rot1c m).length = width m := by
  simp [rot1c]

theorem rot1c_rect (m : Mat) : RectW (rot1c m) m.length := by
  intro row hrow
  rcases List.mem_map.mp hrow with ⟨i, _, rfl⟩
  simp

theorem rot2_length (m : Mat) : (rot2 m).length = m.length := by
  simp [rot2]

theorem rot2_rect {m : Mat} {w : Nat} (hw : RectW m w) : RectW (rot2 m) w := by
  intro row hrow
  rw [rot2, List.mem_reverse] at hrow
  rcases List.mem_map.mp hrow with ⟨r, hr, rfl⟩
  simpa using hw r hr

theorem ne_nil_of_length_pos {α : Type} {l : List α} (h : 0 < l.length) :
    l ≠ [] := by
  cases l with
  | nil => simp at h
  | cons a l => simp

theorem getD_mem {α : Type} (l : List α) (k : Nat) (d : α) (h : k < l.length) :
    l.getD k d ∈ l := by
  rw [List.getD_eq_getElem?_getD, List.getElem?_eq_getElem h]
  exact List.getElem_mem h

/-- Cell formula for the canonical quarter turn: cell `(i, j)` of the turned
matrix is cell `(rows − 1 − j, i)` of the original. -/
theorem cellAt_rot1c {m : Mat} {w : Nat} (hw : RectW m w) (i j : Nat) :
    cellAt (rot1c m) i j =
      if i < w ∧ j < m.length then cellAt m (m.length - 1 - j) i
      else TPSpace.Empty := by
  by_cases hne : m = []
  · subst hne
    simp [cellAt, rot1c, width]
  · have hww : width m = w := width_eq hw hne
    have hlenpos : 0 < m.length := List.length_pos.mpr hne
    unfold cellAt rot1c
    rw [hww, getD_map_range]
    by_cases hi : i < w
    · rw [if_pos hi]
      by_cases hj : j < m.length
      · rw [if_pos ⟨hi, hj⟩, getD_reverse _ _ _ (by simpa using hj),
          List.length_map, getD_map' _ _ _ _ ([] : List TPSpace) (by omega)]
      · rw [if_neg (by tauto), getD_out _ _ _
          (by simpa using Nat.le_of_not_lt hj)]
    · rw [if_neg hi, if_neg (by tauto)]
      simp

/-- Cell formula for the half turn: cell `(i, j)` of the turned matrix is
cell `(rows − 1 − i, cols − 1 − j)` of the original. -/
theorem cellAt_rot2 {m : Mat} {w : Nat} (hw : RectW m w) (i j : Nat) :
    cellAt (rot2 m) i j =
      if i < m.length ∧ j < w then cellAt m (m.length - 1 - i) (w - 1 - j)
      else TPSpace.Empty := by
  unfold cellAt rot2
  by_cases hi : i < m.length
  · rw [getD_reverse _ _ _ (by simpa using hi), List.length_map,
      getD_map' _ _ _ _ ([] : List TPSpace) (by omega)]
    have hrow : (m.getD (m.length - 1 - i) []).length = w :=
      hw _ (getD_mem m _ [] (by omega))
    by_cases hj : j < w
    · rw [if_pos ⟨hi, hj⟩, getD_reverse _ _ _ (by rw [hrow]; exact hj), hrow]
    · rw [if_neg (by tauto), getD_out _ _ _
        (by rw [List.length_reverse, hrow]; omega)]
  · rw [if_neg (by tauto),
      getD_out ((m.map List.reverse).reverse) i []
        (by simpa using Nat.le_of_not_lt hi)]
    simp

theorem row_ext {r₁ r₂ : List TPSpace} (hl : r₁.length = r₂.length)
    (h : ∀ j, r₁.getD j TPSpace.Empty = r₂.getD j TPSpace.Empty) : r₁ = r₂ := by
  apply List.ext_getElem hl
  intro j h1 h2
  have hj := h j
  rw [List.getD_eq_getElem?_getD, List.getD_eq_getElem?_getD,
    List.getElem?_eq_getElem h1, List.getElem?_eq_getElem h2] at hj
  simpa using hj

/-- Two rectangular matrices of the same shape with equal cells are equal. -/
theorem mat_ext {m₁ m₂ : Mat} {w : Nat} (h1 : RectW m₁ w) (h2 : RectW m₂ w)
    (hlen : m₁.length = m₂.length)
    (hc : ∀ i j, cellAt m₁ i j = cellAt m₂ i j) : m₁ = m₂ := by
  apply List.ext_getElem hlen
  intro i hi1 hi2
  apply row_ext
  · rw [h1 _ (List.getElem_mem hi1), h2 _ (List.getElem_mem hi2)]
  · intro j
    have hcell := hc i j
    unfold cellAt at hcell
    rw [List.getD_eq_getElem?_getD m₁, List.getD_eq_getElem?_getD m₂,
      List.getElem?_eq_getElem hi1, List.getElem?_eq_getElem hi2] at hcell
    simpa using hcell

theorem rot2_rot2 (m : Mat) : rot2 (rot2 m) = m := by
  simp [rot2, List.map_reverse]

/-- Two quarter turns are one half turn. -/
theorem rot1c_rot1c {m : Mat} {w : Nat} (hw : RectW m w) (hne : m ≠ [])
    (h0 : 0 < w) : rot1c (rot1c m) = rot2 m := by
  have hh : 0 < m.length := List.length_pos.mpr hne
  have hrw : (rot1c m).length = w := by rw [rot1c_length, width_eq hw hne]
  have hr1 : RectW (rot1c m) m.length := rot1c_rect m
  apply mat_ext (w := w)
  · have := rot1c_rect (rot1c m)
    rwa [hrw] at this
  · exact rot2_rect hw
  · rw [rot1c_length, width_eq hr1 (ne_nil_of_length_pos (hrw ▸ h0)),
      rot2_length]
  · intro i j
    rw [cellAt_rot1c hr1, cellAt_rot2 hw, hrw]
    by_cases hij : i < m.length ∧ j < w
    · rw [if_pos ⟨hij.1, hij.2⟩, if_pos ⟨hij.1, hij.2⟩,
        cellAt_rot1c hw, if_pos (⟨by omega, hij.1⟩ : _ ∧ _)]
    · rw [if_neg (by tauto), if_neg (by tauto)]

/-- A quarter turn of a half turn is a half turn of a quarter turn (both are
the source's three-quarter turn). -/
theorem rot1c_rot2 {m : Mat} {w : Nat} (hw : RectW m w) (hne : m ≠ [])
    (h0 : 0 < w) : rot1c (rot2 m) = rot2 (rot1c m) := by
  have hh : 0 < m.length := List.length_pos.mpr hne
  have hr2len : (rot2 m).length = m.length := rot2_length m
  have hr2 : RectW (rot2 m) w := rot2_rect hw
  have hr2ne : rot2 m ≠ [] := ne_nil_of_length_pos (by omega)
  have hr1 : RectW (rot1c m) m.length := rot1c_rect m
  have hrw : (rot1c m).length = w := by rw [rot1c_length, width_eq hw hne]
  apply mat_ext (w := m.length)
  · have := rot1c_rect (rot2 m)
    rwa [hr2len] at this
  · exact rot2_rect hr1
  · rw [rot1c_length, width_eq hr2 hr2ne, rot2_length, hrw]
  · intro i j
    rw [cellAt_rot1c hr2, cellAt_rot2 hr1, hr2len, hrw]
    by_cases hij : i < w ∧ j < m.length
    · rw [if_pos ⟨hij.1, hij.2⟩, if_pos ⟨hij.1, hij.2⟩,
        cellAt_rot2 hw, cellAt_rot1c hw,
        if_pos (⟨by omega, hij.1⟩ : _ ∧ _),
        if_pos (⟨by omega, by omega⟩ : _ ∧ _)]
    · rw [if_neg (by tauto), if_neg (by tauto)]

/-- A quarter turn undoes the three-quarter turn. -/
theorem rot1c_rot2_rot1c {m : Mat} {w : Nat} (hw : RectW m w) (hne : m ≠ [])
    (h0 : 0 < w) : rot1c (rot2 (rot1c m)) = m := by
  have hh : 0 < m.length := List.length_pos.mpr hne
  have hrw : (rot1c m).length = w := by rw [rot1c_length, width_eq hw hne]
  have h1 := rot1c_rot2 (rot1c_rect m) (ne_nil_of_length_pos (hrw ▸ h0)) hh
  rw [h1, rot1c_rot1c hw hne h0, rot2_rot2]

/-- On a non-empty rectangular matrix, `rotate_matrix` always succeeds and
yields the canonical rotation for `times % 4`. -/
theorem rotate_matrix_eq {m : Mat} {w : Nat} (hw : RectW m w) (hne : m ≠ [])
    (k : Nat) : rotate_matrix m k = some (rotK m (k % 4)) := by
  have h4 : k % 4 = 0 ∨ k % 4 = 1 ∨ k % 4 = 2 ∨ k % 4 = 3 := by omega
  rcases h4 with h | h | h | h <;>
    simp [rotate_matrix, h, rotK, rot1_eq hw hne]

theorem rotK_dims {m : Mat} {w : Nat} (hw : RectW m w) (hne : m ≠ [])
    (h0 : 0 < w) : ∀ k, k < 4 → ∃ w2, RectW (rotK m k) w2 ∧ rotK m k ≠ [] ∧
      0 < w2 ∧ (k % 2 = 0 → (rotK m k).length = m.length ∧ w2 = w) ∧
      (k % 2 = 1 → (rotK m k).length = w ∧ w2 = m.length) := by
  have hh : 0 < m.length := List.length_pos.mpr hne
  have hrw : (rot1c m).length = w := by rw [rot1c_length, width_eq hw hne]
  intro k hk
  interval_cases k
  · exact ⟨w, hw, hne, h0, fun _ => ⟨rfl, rfl⟩, fun hx => absurd hx (by omega)⟩
  · exact ⟨m.length, rot1c_rect m, ne_nil_of_length_pos (hrw ▸ h0), hh,
      fun hx => absurd hx (by omega), fun _ => ⟨hrw, rfl⟩⟩
  · exact ⟨w, rot2_rect hw,
      ne_nil_of_length_pos (show 0 < (rot2 m).length by rw [rot2_length]; omega),
      h0, fun _ => ⟨rot2_length m, rfl⟩, fun hx => absurd hx (by omega)⟩
  · exact ⟨m.length, rot2_rect (rot1c_rect m),
      ne_nil_of_length_pos
        (show 0 < (rot2 (rot1c m)).length by rw [rot2_length, hrw]; omega),
      hh, fun hx => absurd hx (by omega),
      fun _ => ⟨show (rot2 (rot1c m)).length = w by rw [rot2_length, hrw], rfl⟩⟩

/-- Composing canonical rotations adds turn counts modulo 4. -/
theorem rotK_comp {m : Mat} {w : Nat} (hw : RectW m w) (hne : m ≠ [])
    (h0 : 0 < w) : ∀ a b, a < 4 → b < 4 →
      rotK (rotK m a) b = rotK m ((a + b) % 4) := by
  intro a b ha hb
  interval_cases a <;> interval_cases b <;>
    simp [rotK, rot1c_rot1c hw hne h0, rot1c_rot2 hw hne h0,
      rot1c_rot2_rot1c hw hne h0, rot2_rot2]

/-- The composition law of the source's `rotate_matrix`: rotating by `a` and
then by `b` quarter turns equals rotating by `a + b` quarter turns. -/
theorem rotate_comp {m : Mat} {w : Nat} (hw : RectW m w) (hne : m ≠ [])
    (h0 : 0 < w) (a b : Nat) :
    (rotate_matrix m a).bind (fun x => rotate_matrix x b)
      = rotate_matrix m (a + b) := by
  obtain ⟨w2, hw2, hne2, h02, _⟩ :=
    rotK_dims hw hne h0 (a % 4) (Nat.mod_lt _ (by omega))
  rw [rotate_matrix_eq hw hne a]
  show rotate_matrix (rotK m (a % 4)) b = _
  rw [rotate_matrix_eq hw2 hne2 b,
    rotK_comp hw hne h0 (a % 4) (b % 4) (Nat.mod_lt _ (by omega))
      (Nat.mod_lt _ (by omega)),
    rotate_matrix_eq hw hne (a + b), ← Nat.add_mod]

/-- Undoing a rotation: `r` quarter turns followed by `4 - r` quarter turns
restore the matrix. -/
theorem rotK_back {m : Mat} {w : Nat} (hw : RectW m w) (hne : m ≠ [])
    (h0 : 0 < w) (r : Nat) (hr : r < 4) :
    rotK (rotK m r) ((4 - r) % 4) = m := by
  rw [rotK_comp hw hne h0 r ((4 - r) % 4) hr (by omega)]
  have h : (r + (4 - r) % 4) % 4 = 0 := by omega
  rw [h]
  rfl

/-! ### Cell counts -/

theorem count_eq_sum_getD (c : TPSpace) (l : List TPSpace) :
    l.count c = ∑ j ∈ Finset.range l.length,
      (if l.getD j TPSpace.Empty = c then 1 else 0) := by
  induction l with
  | nil => simp
  | cons x xs ih =>
    rw [List.length_cons, Finset.sum_range_succ']
    simp only [List.getD_cons_succ, List.getD_cons_zero]
    rw [← ih, List.count_cons]
    by_cases hx : x = c <;> simp [hx]

theorem cellCount_eq_sum {m : Mat} {w : Nat} (hw : RectW m w) (c : TPSpace) :
    cellCount c m = ∑ i ∈ Finset.range m.length, ∑ j ∈ Finset.range w,
      (if cellAt m i j = c then 1 else 0) := by
  induction m with
  | nil => simp [cellCount]
  | cons row rest ih =>
    have hrow : row.length = w := hw row (List.mem_cons_self row rest)
    have hrest : RectW rest w := fun r hr => hw r (List.mem_cons_of_mem row hr)
    have hmain : cellCount c (row :: rest) = row.count c + cellCount c rest := by
      simp [cellCount]
    rw [hmain, ih hrest, List.length_cons, Finset.sum_range_succ']
    have h0 : (∑ j ∈ Finset.range w,
        if cellAt (row :: rest) 0 j = c then 1 else 0) = row.count c := by
      rw [count_eq_sum_getD c row, hrow]
      exact Finset.sum_congr rfl (fun j _ => by simp [cellAt])
    have h1 : ∀ i ∈ Finset.range rest.length,
        (∑ j ∈ Finset.range w, if cellAt (row :: rest) (i + 1) j = c then 1 else 0)
          = ∑ j ∈ Finset.range w, if cellAt rest i j = c then 1 else 0 :=
      fun i _ => Finset.sum_congr rfl
        (fun j _ => by simp [cellAt, List.getD_cons_succ])
    rw [Finset.sum_congr rfl h1, h0]
    omega

theorem cellCount_rot2 (c : TPSpace) (m : Mat) :
    cellCount c (rot2 m) = cellCount c m := by
  simp only [cellCount, rot2, List.map_reverse, List.map_map, List.sum_reverse]
  exact congrArg List.sum
    (List.map_congr_left fun r _ => by simp [Function.comp, List.count_reverse])

theorem cellCount_rot1c {m : Mat} {w : Nat} (hw : RectW m w) (hne : m ≠ [])
    (c : TPSpace) : cellCount c (rot1c m) = cellCount c m := by
  have hh : 0 < m.length := List.length_pos.mpr hne
  have hrw : (rot1c m).length = w := by rw [rot1c_length, width_eq hw hne]
  rw [cellCount_eq_sum (rot1c_rect m) c, cellCount_eq_sum hw c, hrw]
  have h1 : ∀ i ∈ Finset.range w,
      (∑ j ∈ Finset.range m.length,
        if cellAt (rot1c m) i j = c then 1 else 0)
      = ∑ j ∈ Finset.range m.length, if cellAt m j i = c then 1 else 0 := by
    intro i hi
    have hstep : ∀ j ∈ Finset.range m.length,
        (if cellAt (rot1c m) i j = c then 1 else 0)
          = (if cellAt m (m.length - 1 - j) i = c then 1 else 0) := by
      intro j hj
      have hcond : i < w ∧ j < m.length :=
        ⟨Finset.mem_range.mp hi, Finset.mem_range.mp hj⟩
      rw [cellAt_rot1c hw, if_pos hcond]
    rw [Finset.sum_congr rfl hstep,
      Finset.sum_range_reflect (fun j => if cellAt m j i = c then 1 else 0)]
  rw [Finset.sum_congr rfl h1, Finset.sum_comm]

theorem cellCount_rotK {m : Mat} {w : Nat} (hw : RectW m w) (hne : m ≠ [])
    (k : Nat) (hk : k < 4) (c : TPSpace) :
    cellCount c (rotK m k) = cellCount c m := by
  interval_cases k
  · rfl
  · exact cellCount_rot1c hw hne c
  · exact cellCount_rot2 c m
  · show cellCount c (rot2 (rot1c m)) = _
    rw [cellCount_rot2, cellCount_rot1c hw hne c]

/-! ### Behaviour of `tilt` -/

theorem map_tilt_row_rect {m : Mat} {w : Nat} (hw : RectW m w) :
    RectW (m.map tilt_row) w := by
  intro row hrow
  rcases List.mem_map.mp hrow with ⟨r, hr, rfl⟩
  rw [tilt_row_length]
  exact hw r hr

theorem cellCount_map_tilt_row (c : TPSpace) (m : Mat) :
    cellCount c (m.map tilt_row) = cellCount c m := by
  simp only [cellCount, List.map_map]
  exact congrArg List.sum
    (List.map_congr_left fun r _ => by simp [Function.comp, tilt_row_count])

theorem getD_sq_iff (row : List TPSpace) (j : Nat) :
    row.getD j TPSpace.Empty = TPSpace.SquareStone ↔
      row[j]? = some TPSpace.SquareStone := by
  rw [List.getD_eq_getElem?_getD]
  cases h : row[j]? <;> simp

/-- Row-wise compaction leaves every square stone where it was. -/
theorem cellAt_map_tilt_row_sq (m : Mat) (i j : Nat) :
    cellAt (m.map tilt_row) i j = TPSpace.SquareStone ↔
      cellAt m i j = TPSpace.SquareStone := by
  unfold cellAt
  by_cases hi : i < m.length
  · rw [getD_map' m tilt_row i [] [] hi, getD_sq_iff, getD_sq_iff,
      tilt_row_sq_pos]
  · rw [getD_out (m.map tilt_row) i [] (by simpa using Nat.le_of_not_lt hi),
      getD_out m i [] (Nat.le_of_not_lt hi)]

theorem sq_congr_rot1c {A B : Mat} {w : Nat} (hA : RectW A w) (hB : RectW B w)
    (hlen : A.length = B.length)
    (h : ∀ i j, cellAt A i j = TPSpace.SquareStone ↔
      cellAt B i j = TPSpace.SquareStone) :
    ∀ i j, cellAt (rot1c A) i j = TPSpace.SquareStone ↔
      cellAt (rot1c B) i j = TPSpace.SquareStone := by
  intro i j
  rw [cellAt_rot1c hA, cellAt_rot1c hB, hlen]
  by_cases hij : i < w ∧ j < B.length
  · rw [if_pos hij, if_pos hij]
    exact h _ _
  · rw [if_neg hij, if_neg hij]

theorem sq_congr_rot2 {A B : Mat} {w : Nat} (hA : RectW A w) (hB : RectW B w)
    (hlen : A.length = B.length)
    (h : ∀ i j, cellAt A i j = TPSpace.SquareStone ↔
      cellAt B i j = TPSpace.SquareStone) :
    ∀ i j, cellAt (rot2 A) i j = TPSpace.SquareStone ↔
      cellAt (rot2 B) i j = TPSpace.SquareStone := by
  intro i j
  rw [cellAt_rot2 hA, cellAt_rot2 hB, hlen]
  by_cases hij : i < B.length ∧ j < w
  · rw [if_pos hij, if_pos hij]
    exact h _ _
  · rw [if_neg hij, if_neg hij]

theorem rotK_sq_congr {A B : Mat} {w : Nat} (hA : RectW A w) (hB : RectW B w)
    (hlen : A.length = B.length) (hneA : A ≠ []) (h0 : 0 < w)
    (k : Nat) (hk : k < 4)
    (h : ∀ i j, cellAt A i j = TPSpace.SquareStone ↔
      cellAt B i j = TPSpace.SquareStone) :
    ∀ i j, cellAt (rotK A k) i j = TPSpace.SquareStone ↔
      cellAt (rotK B k) i j = TPSpace.SquareStone := by
  have hneB : B ≠ [] := by
    intro hb
    rw [hb] at hlen
    exact hneA (List.length_eq_zero.mp (by simpa using hlen))
  have hwA : width A = w := width_eq hA hneA
  have hwB : width B = w := width_eq hB hneB
  have hl1 : (rot1c A).length = (rot1c B).length := by
    rw [rot1c_length, rot1c_length, hwA, hwB]
  interval_cases k
  · exact h
  · exact sq_congr_rot1c hA hB hlen h
  · exact sq_congr_rot2 hA hB hlen h
  · exact sq_congr_rot2 (w := A.length) (rot1c_rect A)
      (by rw [hlen]; exact rot1c_rect B) hl1
      (sq_congr_rot1c hA hB hlen h)

/-- Everything `tilt` guarantees on a non-empty rectangular grid: it
succeeds, it preserves the shape, it preserves the number of cells of every
variant, and it leaves every square stone in place. -/
theorem tilt_core {m : Mat} {w : Nat} (hw : RectW m w) (hne : m ≠ [])
    (h0 : 0 < w) (r : Nat) (hr : r < 4) :
    ∃ m2, (rotate_matrix m r).bind
        (fun m1 => rotate_matrix (m1.map tilt_row) (4 - r)) = some m2 ∧
      RectW m2 w ∧ m2.length = m.length ∧
      (∀ c, cellCount c m2 = cellCount c m) ∧
      (∀ i j, cellAt m2 i j = TPSpace.SquareStone ↔
        cellAt m i j = TPSpace.SquareStone) := by
  have hh : 0 < m.length := List.length_pos.mpr hne
  obtain ⟨wA, hwA, hneA, h0A, hAev, hAod⟩ := rotK_dims hw hne h0 r hr
  have hBrect : RectW ((rotK m r).map tilt_row) wA := map_tilt_row_rect hwA
  have hBlen : ((rotK m r).map tilt_row).length = (rotK m r).length :=
    List.length_map _ _
  have hBne : (rotK m r).map tilt_row ≠ [] := by
    simpa using hneA
  obtain ⟨w2, hw2, hne2, h02, hBev, hBod⟩ :=
    rotK_dims hBrect hBne h0A ((4 - r) % 4) (by omega)
  refine ⟨rotK ((rotK m r).map tilt_row) ((4 - r) % 4), ?_, ?_, ?_, ?_, ?_⟩
  · rw [rotate_matrix_eq hw hne r, Nat.mod_eq_of_lt hr]
    show rotate_matrix ((rotK m r).map tilt_row) (4 - r) = _
    rw [rotate_matrix_eq hBrect hBne (4 - r)]
  · have hpar : r % 2 = 0 ∨ r % 2 = 1 := by omega
    rcases hpar with hp | hp
    · have h1 := hAev hp
      have h2 := hBev (by omega)
      have hww : w2 = w := by rw [h2.2, h1.2]
      exact hww ▸ hw2
    · have h1 := hAod hp
      have h2 := hBod (by omega)
      have hww : w2 = w := by rw [h2.2, hBlen, h1.1]
      exact hww ▸ hw2
  · have hpar : r % 2 = 0 ∨ r % 2 = 1 := by omega
    rcases hpar with hp | hp
    · have h1 := hAev hp
      have h2 := hBev (by omega)
      rw [h2.1, hBlen, h1.1]
    · have h1 := hAod hp
      have h2 := hBod (by omega)
      rw [h2.1, h1.2]
  · intro c
    rw [cellCount_rotK hBrect hBne _ (by omega) c,
      cellCount_map_tilt_row c (rotK m r), cellCount_rotK hw hne r hr c]
  · intro i j
    have hback : rotK (rotK m r) ((4 - r) % 4) = m := rotK_back hw hne h0 r hr
    have hsq := rotK_sq_congr hBrect hwA hBlen hBne h0A ((4 - r) % 4)
      (by omega) (fun i j => cellAt_map_tilt_row_sq (rotK m r) i j) i j
    rwa [hback] at hsq

theorem rotationOf_lt (d : Direction) : rotationOf d < 4 := by
  cases d <;> decide

/-- `tilt` on a well-formed grid: success, shape preservation, conservation
of every cell variant, and fixed square stones. -/
theorem tilt_wf {m : Mat} (hwf : WellFormed m) (d : Direction) :
    ∃ m2, tilt m d = some m2 ∧ WellFormed m2 ∧ m2.length = m.length ∧
      width m2 = width m ∧ (∀ c, cellCount c m2 = cellCount c m) ∧
      (∀ i j, cellAt m2 i j = TPSpace.SquareStone ↔
        cellAt m i j = TPSpace.SquareStone) := by
  obtain ⟨hne, h0, hrect⟩ := hwf
  obtain ⟨m2, ht, hw2, hlen, hcnt, hsq⟩ :=
    tilt_core hrect hne h0 (rotationOf d) (rotationOf_lt d)
  have hne2 : m2 ≠ [] := by
    apply ne_nil_of_length_pos
    rw [hlen]
    exact List.length_pos.mpr hne
  have hwidth2 : width m2 = width m := by
    rw [width_eq hw2 hne2]
  exact ⟨m2, ht, ⟨hne2, by rw [hwidth2]; exact h0,
      by rw [hwidth2]; exact hw2⟩, hlen, hwidth2, hcnt, hsq⟩

/-- One spin cycle on a well-formed grid: success, shape preservation and
conservation of every cell variant. -/
theorem spin_wf {m : Mat} (hwf : WellFormed m) :
    ∃ m2, spin m = some m2 ∧ WellFormed m2 ∧ m2.length = m.length ∧
      width m2 = width m ∧ ∀ c, cellCount c m2 = cellCount c m := by
  obtain ⟨a, ha, hwfa, hla, hwa, hca, _⟩ := tilt_wf hwf Direction.North
  obtain ⟨b, hb, hwfb, hlb, hwb, hcb, _⟩ := tilt_wf hwfa Direction.West
  obtain ⟨e, he, hwfe, hle, hwe, hce, _⟩ := tilt_wf hwfb Direction.South
  obtain ⟨f, hf, hwff, hlf, hwf2, hcf, _⟩ := tilt_wf hwfe Direction.East
  refine ⟨f, ?_, hwff, by omega, ?_, ?_⟩
  · simp [spin, ha, hb, he, hf]
  · rw [hwf2, hwe, hwb, hwa]
  · intro c
    rw [hcf c, hce c, hcb c, hca c]

/-- Tilting twice in the same direction equals tilting once. -/
theorem tilt_tilt {m : Mat} (hwf : WellFormed m) (d : Direction) :
    (tilt m d).bind (fun x => tilt x d) = tilt m d := by
  obtain ⟨hne, h0, hrect⟩ := hwf
  have hr : rotationOf d < 4 := rotationOf_lt d
  obtain ⟨wA, hwA, hneA, h0A, hAev, hAod⟩ :=
    rotK_dims hrect hne h0 (rotationOf d) hr
  have hBrect : RectW ((rotK m (rotationOf d)).map tilt_row) wA :=
    map_tilt_row_rect hwA
  have hBne : (rotK m (rotationOf d)).map tilt_row ≠ [] := by
    simpa using hneA
  have ht : tilt m d = some (rotK ((rotK m (rotationOf d)).map tilt_row)
      ((4 - rotationOf d) % 4)) := by
    rw [tilt, rotate_matrix_eq hrect hne, Nat.mod_eq_of_lt hr]
    show rotate_matrix ((rotK m (rotationOf d)).map tilt_row)
        (4 - rotationOf d) = _
    rw [rotate_matrix_eq hBrect hBne]
  obtain ⟨w2, hw2, hne2, h02, _, _⟩ :=
    rotK_dims hBrect hBne h0A ((4 - rotationOf d) % 4) (by omega)
  rw [ht]
  show tilt (rotK ((rotK m (rotationOf d)).map tilt_row)
      ((4 - rotationOf d) % 4)) d = _
  rw [tilt, rotate_matrix_eq hw2 hne2, Nat.mod_eq_of_lt hr]
  have hcomp := rotK_comp hBrect hBne h0A ((4 - rotationOf d) % 4)
    (rotationOf d) (by omega) hr
  have hzero : ((4 - rotationOf d) % 4 + rotationOf d) % 4 = 0 := by omega
  rw [hzero] at hcomp
  show rotate_matrix ((rotK (rotK ((rotK m (rotationOf d)).map tilt_row)
      ((4 - rotationOf d) % 4)) (rotationOf d)).map tilt_row)
      (4 - rotationOf d) = _
  rw [hcomp]
  show rotate_matrix (((rotK m (rotationOf d)).map tilt_row).map tilt_row)
      (4 - rotationOf d) = _
  have hBB : ((rotK m (rotationOf d)).map tilt_row).map tilt_row
      = (rotK m (rotationOf d)).map tilt_row := by
    rw [List.map_map]
    exact List.map_congr_left (fun row _ => by
      simp [Function.comp, tilt_row_idem])
  rw [hBB, rotate_matrix_eq hBrect hBne]

/-- The loop of `cycle` only ever returns grids with the same cell counts
as the running grid and the recorded states. -/
theorem cycleGo_cons (C : TPSpace → Nat) :
    ∀ (fuel : Nat) (out : Mat) (states : List Mat),
      WellFormed out → (∀ c, cellCount c out = C c) →
      (∀ s ∈ states, ∀ c, cellCount c s = C c) →
      ∀ res, cycleGo fuel out states = some res →
        ∀ c, cellCount c res = C c := by
  intro fuel
  induction fuel with
  | zero =>
    intro out states hwf hout hstates res hres c
    simp [cycleGo] at hres
    rw [← hres]
    exact hout c
  | succ n ih =>
    intro out states hwf hout hstates res hres c
    obtain ⟨m2, hm2, hwf2, _, _, hc2⟩ := spin_wf hwf
    rw [cycleGo, hm2] at hres
    simp only [Option.some_bind] at hres
    cases hfind : states.findIdx? (fun s => decide (s = m2)) with
    | some i =>
      rw [hfind] at hres
      simp only at hres
      by_cases hj : i + (n + 1) % (states.length - i) = 0
      · rw [if_pos hj] at hres
        cases hres
      · rw [if_neg hj] at hres
        exact hstates res (mem_of_getElem?_some hres) c
    | none =>
      rw [hfind] at hres
      refine ih m2 (states ++ [m2]) hwf2
        (fun c2 => (hc2 c2).trans (hout c2)) ?_ res hres c
      intro s hs c2
      rcases List.mem_append.mp hs with h | h
      · exact hstates s h c2
      · rw [List.mem_singleton.mp h]
        exact (hc2 c2).trans (hout c2)

/-- Whatever grid `cycle` returns has the cell counts of its input. -/
theorem cycle_cons {m : Mat} (hwf : WellFormed m) (n : Nat) (res : Mat)
    (hres : cycle m n = some res) (c : TPSpace) :
    cellCount c res = cellCount c m :=
  cycleGo_cons (fun c => cellCount c m) n m [] hwf (fun _ => rfl)
    (by simp) res hres c

/-- Tilting West is exactly row-wise compaction (rotation count 0). -/
theorem tilt_west (m : Mat) : tilt m Direction.West = some (m.map tilt_row) :=
  rfl

/-! ### Load -/

/-- Closed form of `get_load`: the row at 0-based index `i` from the top of
an `R`-row grid carries weight `R - i`. -/
theorem get_load_eq (m : Mat) :
    get_load m = ∑ i ∈ Finset.range m.length,
      (m.getD i []).count TPSpace.RoundStone * (m.length - i) := by
  induction m with
  | nil => simp [get_load]
  | cons row rest ih =>
    have hstep : get_load (row :: rest) = get_load rest
        + row.count TPSpace.RoundStone * (rest.length + 1) := by
      unfold get_load
      rw [List.reverse_cons, List.enum_append]
      simp [List.enumFrom, List.length_reverse]
    rw [hstep, ih, List.length_cons, Finset.sum_range_succ']
    simp only [List.getD_cons_succ, List.getD_cons_zero]
    have hcong : ∀ i ∈ Finset.range rest.length,
        (rest.getD i []).count TPSpace.RoundStone * (rest.length - i)
          = (rest.getD i []).count TPSpace.RoundStone
            * (rest.length + 1 - (i + 1)) := by
      intro i hi
      congr 1
      omega
    rw [Finset.sum_congr rfl hcong]
    simp

/-! ### Parsing -/

theorem parseChar_isSome_iff (c : Char) :
    (parseChar c).isSome = true ↔ (c = '.' ∨ c = '#' ∨ c = 'O') := by
  unfold parseChar
  by_cases h1 : c = '.'
  · simp [h1]
  · by_cases h2 : c = '#'
    · simp [h1, h2]
    · by_cases h3 : c = 'O'
      · simp [h1, h2, h3]
      · simp [h1, h2, h3]

theorem parseRow_isSome_iff (cs : List Char) :
    (parseRow cs).isSome = true ↔
      ∀ c ∈ cs, (c = '.' ∨ c = '#' ∨ c = 'O') := by
  induction cs with
  | nil => simp [parseRow]
  | cons c cs ih =>
    rw [parseRow]
    cases hc : parseChar c with
    | none =>
      have hbad : ¬ (c = '.' ∨ c = '#' ∨ c = 'O') := by
        rw [← parseChar_isSome_iff, hc]
        simp
      simp [hbad]
    | some s =>
      have hcv : (c = '.' ∨ c = '#' ∨ c = 'O') := by
        rw [← parseChar_isSome_iff, hc]
        rfl
      simp [ih, hcv]

theorem parse_isSome_iff (lines : List String) :
    (parse lines).isSome = true ↔
      ∀ l ∈ lines, ∀ c ∈ l.toList, (c = '.' ∨ c = '#' ∨ c = 'O') := by
  induction lines with
  | nil => simp [parse]
  | cons l ls ih =>
    rw [parse]
    cases hr : parseRow l.toList with
    | none =>
      have hbad : ¬ ∀ c ∈ l.toList, (c = '.' ∨ c = '#' ∨ c = 'O') := by
        rw [← parseRow_isSome_iff, hr]
        simp
      constructor
      · intro hfalse
        simp at hfalse
      · intro hall
        exact absurd
          (fun c hc => hall l (List.mem_cons_self l ls) c hc) hbad
    | some row =>
      have hlv : ∀ c ∈ l.toList, (c = '.' ∨ c = '#' ∨ c = 'O') :=
        (parseRow_isSome_iff _).mp (by rw [hr]; rfl)
      simp only [Option.some_bind]
      cases hp : parse ls with
      | none =>
        constructor
        · intro hfalse
          simp at hfalse
        · intro hall
          have hsome : (parse ls).isSome = true := by
            rw [ih]
            intro l2 hl2 c hc
            exact hall l2 (List.mem_cons_of_mem l hl2) c hc
          rw [hp] at hsome
          simp at hsome
      | some g2 =>
        constructor
        · intro _ l2 hl2 c hc
          rcases List.mem_cons.mp hl2 with rfl | h2
          · exact hlv c hc
          · exact (ih.mp (by rw [hp]; rfl)) l2 h2 c hc
        · intro _
          simp

theorem parseRow_get {cs : List Char} {row : List TPSpace}
    (h : parseRow cs = some row) :
    row.length = cs.length ∧
      ∀ (j : Nat) (c : Char), cs[j]? = some c → row[j]? = parseChar c := by
  induction cs generalizing row with
  | nil =>
    simp [parseRow] at h
    subst h
    exact ⟨rfl, by intro j c hj; simp at hj⟩
  | cons c cs ih =>
    rw [parseRow] at h
    cases hc : parseChar c with
    | none =>
      rw [hc] at h
      cases h
    | some s =>
      rw [hc] at h
      simp only [Option.some_bind] at h
      cases hr : parseRow cs with
      | none =>
        rw [hr] at h
        cases h
      | some row2 =>
        rw [hr] at h
        simp only [Option.map_some'] at h
        obtain rfl : s :: row2 = row := Option.some.inj h
        obtain ⟨hlen, hget⟩ := ih hr
        refine ⟨by simp [hlen], ?_⟩
        intro j cc hj
        cases j with
        | zero =>
          simp at hj
          subst hj
          simp [hc]
        | succ j =>
          simp only [List.getElem?_cons_succ] at hj ⊢
          exact hget j cc hj

theorem parse_get {lines : List String} {g : Mat} (h : parse lines = some g) :
    g.length = lines.length ∧
      ∀ (i : Nat) (l : String), lines[i]? = some l →
        ∃ row, g[i]? = some row ∧ parseRow l.toList = some row := by
  induction lines generalizing g with
  | nil =>
    simp [parse] at h
    subst h
    exact ⟨rfl, by intro i l hi; simp at hi⟩
  | cons l ls ih =>
    rw [parse] at h
    cases hr : parseRow l.toList with
    | none =>
      rw [hr] at h
      cases h
    | some row =>
      rw [hr] at h
      simp only [Option.some_bind] at h
      cases hp : parse ls with
      | none =>
        rw [hp] at h
        cases h
      | some g2 =>
        rw [hp] at h
        simp only [Option.map_some'] at h
        obtain rfl : row :: g2 = g := Option.some.inj h
        obtain ⟨hlen, hget⟩ := ih hp
        refine ⟨by simp [hlen], ?_⟩
        intro i l2 hi
        cases i with
        | zero =>
          simp at hi
          subst hi
          exact ⟨row, by simp, hr⟩
        | succ i =>
          simp only [List.getElem?_cons_succ] at hi ⊢
          exact hget i l2 hi

/-! ### Direction-wise characterization of tilt -/

theorem colD_length (m : Mat) (j : Nat) : (colD m j).length = m.length := by
  simp [colD]

theorem rot1c_getD {m : Mat} (i : Nat) (hi : i < width m) :
    (rot1c m).getD i [] = (colD m i).reverse := by
  unfold rot1c colD
  rw [getD_map_range, if_pos hi]

/-- Row `i` of the three-quarter turn is column `w - 1 - i`, top to
bottom. -/
theorem rotK3_getD {m : Mat} {w : Nat} (hw : RectW m w) (hne : m ≠ [])
    (i : Nat) (hi : i < w) :
    (rotK m 3).getD i [] = colD m (w - 1 - i) := by
  have hww : width m = w := width_eq hw hne
  have hrw : (rot1c m).length = w := by rw [rot1c_length, hww]
  show (rot2 (rot1c m)).getD i [] = _
  unfold rot2
  rw [getD_reverse _ _ _ (by rw [List.length_map, hrw]; exact hi),
    List.length_map, hrw,
    getD_map' _ _ _ _ ([] : List TPSpace) (by rw [hrw]; omega),
    rot1c_getD _ (by rw [hww]; omega), List.reverse_reverse]

/-- Tilting East is row compaction toward the right edge: reverse each
row, compact, reverse back.  Holds for every grid. -/
theorem tilt_east (m : Mat) :
    tilt m Direction.East
      = some (m.map (fun row => (tilt_row row.reverse).reverse)) := by
  show some (rot2 ((rot2 m).map tilt_row)) = _
  unfold rot2
  rw [List.map_reverse, List.map_reverse, List.reverse_reverse,
    List.map_map, List.map_map]
  rfl

/-- Tilting North is column compaction toward the top edge: on a
well-formed grid, column `j` of the result is the compaction of column `j`
of the input. -/
theorem tilt_north {m : Mat} (hwf : WellFormed m) :
    ∃ m2, tilt m Direction.North = some m2 ∧ m2.length = m.length ∧
      width m2 = width m ∧ ∀ j, j < width m →
        colD m2 j = tilt_row (colD m j) := by
  obtain ⟨hne, h0, hrect⟩ := hwf
  have hh : 0 < m.length := List.length_pos.mpr hne
  obtain ⟨wA, hwA, hneA, h0A, _, hAod⟩ := rotK_dims hrect hne h0 3 (by omega)
  have hA3 := hAod rfl
  have hBrect : RectW ((rotK m 3).map tilt_row) wA := map_tilt_row_rect hwA
  have hBne : (rotK m 3).map tilt_row ≠ [] := by simpa using hneA
  have hBlen : ((rotK m 3).map tilt_row).length = width m := by
    rw [List.length_map, hA3.1]
  have htilt : tilt m Direction.North
      = some (rot1c ((rotK m 3).map tilt_row)) := by
    rw [tilt]
    show (rotate_matrix m 3).bind _ = _
    rw [rotate_matrix_eq hrect hne 3]
    simp only [Option.some_bind]
    show rotate_matrix ((rotK m 3).map tilt_row) 1 = _
    rw [rotate_matrix_eq hBrect hBne 1]
    rfl
  have hm2len : (rot1c ((rotK m 3).map tilt_row)).length = m.length := by
    rw [rot1c_length, width_eq hBrect hBne, hA3.2]
  have hm2rect : RectW (rot1c ((rotK m 3).map tilt_row)) (width m) := by
    have hr := rot1c_rect ((rotK m 3).map tilt_row)
    rwa [hBlen] at hr
  have hm2ne : rot1c ((rotK m 3).map tilt_row) ≠ [] :=
    ne_nil_of_length_pos (by rw [hm2len]; exact hh)
  refine ⟨rot1c ((rotK m 3).map tilt_row), htilt, hm2len,
    width_eq hm2rect hm2ne, ?_⟩
  intro j hj
  have hcell : ∀ i, i < m.length →
      cellAt (rot1c ((rotK m 3).map tilt_row)) i j
        = (tilt_row (colD m j)).getD i TPSpace.Empty := by
    intro i hi
    rw [cellAt_rot1c hBrect,
      if_pos ⟨by rw [hA3.2]; exact hi, by rw [hBlen]; exact hj⟩, hBlen]
    unfold cellAt
    rw [getD_map' (rotK m 3) tilt_row _ _ ([] : List TPSpace)
        (by rw [hA3.1]; omega),
      rotK3_getD hrect hne _ (by omega),
      show width m - 1 - (width m - 1 - j) = j from by omega]
  have hlen2 : (colD (rot1c ((rotK m 3).map tilt_row)) j).length
      = (tilt_row (colD m j)).length := by
    rw [colD_length, hm2len, tilt_row_length, colD_length]
  apply row_ext hlen2
  intro i
  by_cases hi : i < m.length
  · rw [show (colD (rot1c ((rotK m 3).map tilt_row)) j).getD i TPSpace.Empty
        = cellAt (rot1c ((rotK m 3).map tilt_row)) i j from by
      unfold colD cellAt
      rw [getD_map' _ _ _ _ ([] : List TPSpace) (by rw [hm2len]; exact hi)]]
    exact hcell i hi
  · rw [getD_out _ _ _ (by rw [colD_length, hm2len]; omega),
      getD_out _ _ _ (by rw [tilt_row_length, colD_length]; omega)]

/-- Tilting South is column compaction toward the bottom edge: on a
well-formed grid, column `j` of the result is the compaction of the
reversed column `j`, reversed back. -/
theorem tilt_south {m : Mat} (hwf : WellFormed m) :
    ∃ m2, tilt m Direction.South = some m2 ∧ m2.length = m.length ∧
      width m2 = width m ∧ ∀ j, j < width m →
        colD m2 j = (tilt_row (colD m j).reverse).reverse := by
  obtain ⟨hne, h0, hrect⟩ := hwf
  have hh : 0 < m.length := List.length_pos.mpr hne
  have hww : width m = width m := rfl
  obtain ⟨wA, hwA, hneA, h0A, _, hAod⟩ := rotK_dims hrect hne h0 1 (by omega)
  have hA1 := hAod rfl
  have hBrect : RectW ((rotK m 1).map tilt_row) wA := map_tilt_row_rect hwA
  have hBne : (rotK m 1).map tilt_row ≠ [] := by simpa using hneA
  have hBlen : ((rotK m 1).map tilt_row).length = width m := by
    rw [List.length_map, hA1.1]
  have htilt : tilt m Direction.South
      = some (rotK ((rotK m 1).map tilt_row) 3) := by
    rw [tilt]
    show (rotate_matrix m 1).bind _ = _
    rw [rotate_matrix_eq hrect hne 1]
    simp only [Option.some_bind]
    show rotate_matrix ((rotK m 1).map tilt_row) 3 = _
    rw [rotate_matrix_eq hBrect hBne 3]
  obtain ⟨w2, hw2, hne2, h02, _, h2od⟩ :=
    rotK_dims hBrect hBne h0A 3 (by omega)
  have h23 := h2od rfl
  have hm2len : (rotK ((rotK m 1).map tilt_row) 3).length = m.length := by
    rw [h23.1, hA1.2]
  have hm2rect : RectW (rotK ((rotK m 1).map tilt_row) 3) (width m) := by
    have hr := hw2
    rwa [h23.2, hBlen] at hr
  have hm2ne : rotK ((rotK m 1).map tilt_row) 3 ≠ [] := hne2
  refine ⟨rotK ((rotK m 1).map tilt_row) 3, htilt, hm2len,
    width_eq hm2rect hm2ne, ?_⟩
  intro j hj
  have hr1Brect : RectW (rot1c ((rotK m 1).map tilt_row))
      (((rotK m 1).map tilt_row).length) :=
    rot1c_rect ((rotK m 1).map tilt_row)
  have hr1Blen : (rot1c ((rotK m 1).map tilt_row)).length = m.length := by
    rw [rot1c_length, width_eq hBrect hBne, hA1.2]
  have hcell : ∀ i, i < m.length →
      cellAt (rotK ((rotK m 1).map tilt_row) 3) i j
        = (tilt_row (colD m j).reverse).getD (m.length - 1 - i)
            TPSpace.Empty := by
    intro i hi
    show cellAt (rot2 (rot1c ((rotK m 1).map tilt_row))) i j = _
    rw [cellAt_rot2 (w := ((rotK m 1).map tilt_row).length) hr1Brect,
      hr1Blen, hBlen,
      if_pos ⟨hi, hj⟩,
      cellAt_rot1c hBrect,
      if_pos ⟨by rw [hA1.2]; omega, by rw [hBlen]; omega⟩, hBlen,
      show width m - 1 - (width m - 1 - j) = j from by omega]
    unfold cellAt
    rw [getD_map' (rotK m 1) tilt_row _ _ ([] : List TPSpace)
        (by rw [hA1.1]; omega)]
    show (tilt_row ((rot1c m).getD j [])).getD (m.length - 1 - i)
        TPSpace.Empty = _
    rw [rot1c_getD j hj]
  have hlen2 : (colD (rotK ((rotK m 1).map tilt_row) 3) j).length
      = ((tilt_row (colD m j).reverse).reverse).length := by
    rw [colD_length, hm2len, List.length_reverse, tilt_row_length,
      List.length_reverse, colD_length]
  apply row_ext hlen2
  intro i
  by_cases hi : i < m.length
  · rw [show (colD (rotK ((rotK m 1).map tilt_row) 3) j).getD i
          TPSpace.Empty
        = cellAt (rotK ((rotK m 1).map tilt_row) 3) i j from by
      unfold colD cellAt
      rw [getD_map' _ _ _ _ ([] : List TPSpace) (by rw [hm2len]; exact hi)]]
    rw [hcell i hi,
      getD_reverse _ _ _
        (by rw [tilt_row_length, List.length_reverse, colD_length]; exact hi),
      tilt_row_length, List.length_reverse, colD_length]
  · rw [getD_out _ _ _ (by rw [colD_length, hm2len]; omega),
      getD_out _ _ _ (by
        rw [List.length_reverse, tilt_row_length, List.length_reverse,
          colD_length]
        omega)]

/-! ### Claims -/

/-- Claim C1: `cycle(g, n)` is claimed to return exactly the grid of
`cycle_brute_force(g, n)` for every well-formed grid and every `n`,
including when the loop-detection shortcut triggers.  The code violates
this: on the well-formed 1x1 grid `[[RoundStone]]` with `n = 2` the
shortcut computes projection index `i + (times - iteration) % L - 1 =
0 + 1 % 1 - 1`, whose `usize` subtraction underflows, so `cycle` panics
(modelled as `none`) while brute force returns the unchanged grid; and on
the spec's own 10x10 grid with `n = 16` the projection lands one state too
early, so `cycle` returns a different grid than brute force without
panicking. -/
theorem cycle_deviates_from_brute_force :
    WellFormed [[TPSpace.RoundStone]] ∧
    cycle [[TPSpace.RoundStone]] 2 = none ∧
    cycle_brute_force [[TPSpace.RoundStone]] 2
      = some [[TPSpace.RoundStone]] ∧
    (cycle exampleGrid 16).isSome = true ∧
    cycle exampleGrid 16 ≠ cycle_brute_force exampleGrid 16 := by
  refine ⟨by decide, by decide, by decide, by decide, by decide⟩

/-- Claim C2: on the spec's concrete 10x10 grid, the total load is 87 after
1 spin cycle, 69 after 2, 69 after 3, and 64 after 1,000,000,000 — all
computed through the loop-accelerated `cycle`. -/
theorem example_grid_loads :
    parse exampleLines = some exampleGrid ∧
    (cycle exampleGrid 1).map get_load = some 87 ∧
    (cycle exampleGrid 2).map get_load = some 69 ∧
    (cycle exampleGrid 3).map get_load = some 69 ∧
    (cycle exampleGrid 1000000000).map get_load = some 64 := by
  refine ⟨by decide, by decide, by decide, by decide, by decide⟩

/-- Claim C3: the claim says tilt, cycle and load are total on well-formed
grids, and in particular that the degenerate self-matching state causes no
underflow.  `tilt` is indeed total (and `get_load` is a total function by
construction), but `cycle` is not: on the well-formed grid
`[[RoundStone]]`, whose state maps to itself, `cycle(g, 2)` hits exactly
the degenerate case and the projection index underflows — the program
panics, modelled by `none`. -/
theorem tilt_total_cycle_panics :
    (∀ (m : Mat) (d : Direction), WellFormed m → (tilt m d).isSome = true) ∧
    cycle [[TPSpace.RoundStone]] 2 = none := by
  constructor
  · intro m d hwf
    obtain ⟨m2, ht, _⟩ := tilt_wf hwf d
    rw [ht]
    rfl
  · decide

theorem tilt_total_cycle_panics_witness :
    (tilt [[TPSpace.RoundStone]] Direction.South).isSome = true :=
  tilt_total_cycle_panics.1 [[TPSpace.RoundStone]] Direction.South (by decide)

/-- Claim C4 as stated is false in one conjunct: it says "FixedRock and
Empty cells never change position", but whenever a rolling rock moves, the
empty cell it rolls onto is displaced.  In the claim's own example,
tilting `..#..O..` West puts a rolling rock at column 3, where an Empty
cell sat before. -/
theorem empty_cells_do_move_cex :
    cellAt ((parse ["..#..O.."]).getD []) 0 3 = TPSpace.Empty ∧
    (tilt ((parse ["..#..O.."]).getD []) Direction.West).map
      (fun g => cellAt g 0 3) = some TPSpace.RoundStone := by
  refine ⟨by decide, by decide⟩

/-- Claim C4 (amended: Empty cells are passive and are displaced by the
rolling rocks; only FixedRock positions are invariant): compaction packs
every square-free run into its rolling rocks followed by its empties, so
every rock moves as far as possible toward index 0 of its line, stopping
at a fixed rock, a rock already at rest, or the boundary, and never
crossing a fixed rock; tilting West applies this compaction to every row
(rocks roll left), tilting East applies it to every reversed row (rocks
roll right), tilting North applies it to every column (rocks roll up) and
tilting South to every reversed column (rocks roll down); for every
direction on a well-formed grid, tilt succeeds, preserves the shape and
leaves every FixedRock cell in place; and tilting the row `..#..O..` West
yields `..#O....`. -/
theorem tilt_moves_rocks_to_edge :
    (∀ seg : List TPSpace, NoSq seg →
      tilt_row seg
        = List.replicate (seg.count TPSpace.RoundStone) TPSpace.RoundStone
          ++ List.replicate (seg.count TPSpace.Empty) TPSpace.Empty) ∧
    (∀ (seg rest : List TPSpace), NoSq seg →
      tilt_row (seg ++ TPSpace.SquareStone :: rest)
        = List.replicate (seg.count TPSpace.RoundStone) TPSpace.RoundStone
          ++ List.replicate (seg.count TPSpace.Empty) TPSpace.Empty
          ++ TPSpace.SquareStone :: tilt_row rest) ∧
    (∀ m : Mat, tilt m Direction.West = some (m.map tilt_row)) ∧
    (∀ m : Mat, tilt m Direction.East
      = some (m.map (fun row => (tilt_row row.reverse).reverse))) ∧
    (∀ m : Mat, WellFormed m →
      ∃ m2, tilt m Direction.North = some m2 ∧ m2.length = m.length ∧
        width m2 = width m ∧ ∀ j, j < width m →
          colD m2 j = tilt_row (colD m j)) ∧
    (∀ m : Mat, WellFormed m →
      ∃ m2, tilt m Direction.South = some m2 ∧ m2.length = m.length ∧
        width m2 = width m ∧ ∀ j, j < width m →
          colD m2 j = (tilt_row (colD m j).reverse).reverse) ∧
    (∀ (m : Mat) (d : Direction), WellFormed m →
      ∃ m2, tilt m d = some m2 ∧ m2.length = m.length ∧
        width m2 = width m ∧
        (∀ i j, cellAt m2 i j = TPSpace.SquareStone ↔
          cellAt m i j = TPSpace.SquareStone)) ∧
    (parse ["..#..O.."]).bind (fun g => tilt g Direction.West)
      = parse ["..#O...."] := by
  refine ⟨fun seg h => tilt_row_noSq h, fun seg rest h => tilt_row_sq h rest,
    tilt_west, tilt_east, fun m hwf => tilt_north hwf,
    fun m hwf => tilt_south hwf, ?_, by decide⟩
  intro m d hwf
  obtain ⟨m2, ht, _, hlen, hwid, _, hsq⟩ := tilt_wf hwf d
  exact ⟨m2, ht, hlen, hwid, hsq⟩

theorem tilt_moves_rocks_to_edge_witness :
    tilt_row [TPSpace.RoundStone, TPSpace.Empty, TPSpace.RoundStone]
      = List.replicate 2 TPSpace.RoundStone
        ++ List.replicate 1 TPSpace.Empty :=
  tilt_moves_rocks_to_edge.1
    [TPSpace.RoundStone, TPSpace.Empty, TPSpace.RoundStone] (by decide)

/-- Claim C5: `load(g)` is the sum over rows of (number of RollingRock
cells in the row) times (row count minus the 0-based row index from the
top): the topmost row weighs the full row count, the bottom row weighs 1.
Stated and proved for every grid, well-formed or not; `get_load` is a
total function. -/
theorem get_load_spec (m : Mat) :
    get_load m = ∑ i ∈ Finset.range m.length,
      (m.getD i []).count TPSpace.RoundStone * (m.length - i) :=
  get_load_eq m

/-- Claim C6: on a well-formed grid, tilting in any direction succeeds and
preserves the number of cells of each of the three variants, and whenever
`cycle` returns a grid it has the same counts of each variant as its
input. -/
theorem rock_conservation :
    ∀ m : Mat, WellFormed m →
      (∀ d : Direction, ∃ m2, tilt m d = some m2 ∧
        ∀ c, cellCount c m2 = cellCount c m) ∧
      (∀ (n : Nat) (m2 : Mat), cycle m n = some m2 →
        ∀ c, cellCount c m2 = cellCount c m) := by
  intro m hwf
  constructor
  · intro d
    obtain ⟨m2, ht, _, _, _, hc, _⟩ := tilt_wf hwf d
    exact ⟨m2, ht, hc⟩
  · intro n m2 h c
    exact cycle_cons hwf n m2 h c

theorem rock_conservation_witness :
    cellCount TPSpace.RoundStone
        [[TPSpace.Empty, TPSpace.Empty], [TPSpace.Empty, TPSpace.RoundStone]]
      = cellCount TPSpace.RoundStone
        [[TPSpace.RoundStone, TPSpace.Empty],
          [TPSpace.Empty, TPSpace.Empty]] :=
  (rock_conservation [[TPSpace.RoundStone, TPSpace.Empty],
      [TPSpace.Empty, TPSpace.Empty]] (by decide)).2 1
    [[TPSpace.Empty, TPSpace.Empty], [TPSpace.Empty, TPSpace.RoundStone]]
    (by decide) TPSpace.RoundStone

/-- Claim C7: on a well-formed grid, quarter-turn rotation composes —
rotating by `a` and then by `b` equals rotating by `a + b` (so in
particular `rotate(rotate(g,1),1) = rotate(g,2)` and counts add modulo
4) — `rotate(g, 0)` returns the grid unchanged, and four successive
quarter turns return the original grid. -/
theorem rotation_composes (m : Mat) (hwf : WellFormed m) :
    (∀ a b : Nat, (rotate_matrix m a).bind (fun x => rotate_matrix x b)
      = rotate_matrix m (a + b)) ∧
    rotate_matrix m 0 = some m ∧
    ((rotate_matrix m 1).bind fun m1 => (rotate_matrix m1 1).bind fun m2 =>
      (rotate_matrix m2 1).bind fun m3 => rotate_matrix m3 1) = some m := by
  obtain ⟨hne, h0, hrect⟩ := hwf
  refine ⟨fun a b => rotate_comp hrect hne h0 a b, rfl, ?_⟩
  have e14 : (1 : Nat) % 4 = 1 := rfl
  rw [rotate_matrix_eq hrect hne 1, e14]
  simp only [Option.some_bind]
  obtain ⟨w1, hw1, hne1, h01, _, _⟩ := rotK_dims hrect hne h0 1 (by omega)
  rw [rotate_matrix_eq hw1 hne1 1, e14]
  simp only [Option.some_bind]
  have e1 : rotK (rotK m 1) 1 = rotK m 2 :=
    rotK_comp hrect hne h0 1 1 (by omega) (by omega)
  rw [e1]
  obtain ⟨w2, hw2, hne2, h02, _, _⟩ := rotK_dims hrect hne h0 2 (by omega)
  rw [rotate_matrix_eq hw2 hne2 1, e14]
  simp only [Option.some_bind]
  have e2 : rotK (rotK m 2) 1 = rotK m 3 :=
    rotK_comp hrect hne h0 2 1 (by omega) (by omega)
  rw [e2]
  obtain ⟨w3, hw3, hne3, h03, _, _⟩ := rotK_dims hrect hne h0 3 (by omega)
  rw [rotate_matrix_eq hw3 hne3 1, e14]
  have e3 : rotK (rotK m 3) 1 = rotK m 0 :=
    rotK_comp hrect hne h0 3 1 (by omega) (by omega)
  rw [e3]
  rfl

theorem rotation_composes_witness :
    rotate_matrix [[TPSpace.RoundStone]] 0 = some [[TPSpace.RoundStone]] :=
  (rotation_composes [[TPSpace.RoundStone]] (by decide)).2.1

/-- Claim C8: tilting an already-tilted well-formed grid again in the same
direction returns the identical grid — tilting is a fixed point under
repetition in one direction. -/
theorem tilt_fixed_point (m : Mat) (hwf : WellFormed m) (d : Direction) :
    (tilt m d).bind (fun x => tilt x d) = tilt m d :=
  tilt_tilt hwf d

theorem tilt_fixed_point_witness :
    (tilt [[TPSpace.RoundStone, TPSpace.Empty]] Direction.East).bind
      (fun x => tilt x Direction.East)
    = tilt [[TPSpace.RoundStone, TPSpace.Empty]] Direction.East :=
  tilt_fixed_point [[TPSpace.RoundStone, TPSpace.Empty]] (by decide)
    Direction.East

/-- Claim C9: the parser maps `.` to Empty, `#` to FixedRock and `O` to
RollingRock; it succeeds exactly when every character of every line is in
that alphabet (otherwise the process panics, modelled by `none`); and on
success the produced grid has one row per line, each row as long as its
line, with the cell at every position the image of the character at the
same position. -/
theorem parse_spec (lines : List String) :
    parseChar '.' = some TPSpace.Empty ∧
    parseChar '#' = some TPSpace.SquareStone ∧
    parseChar 'O' = some TPSpace.RoundStone ∧
    ((parse lines).isSome = true ↔
      ∀ l ∈ lines, ∀ c ∈ l.toList, (c = '.' ∨ c = '#' ∨ c = 'O')) ∧
    ∀ g : Mat, parse lines = some g →
      g.length = lines.length ∧
      (∀ (i : Nat) (l : String), lines[i]? = some l →
        ∃ row, g[i]? = some row ∧ row.length = l.toList.length ∧
          ∀ (j : Nat) (c : Char), l.toList[j]? = some c →
            row[j]? = parseChar c) := by
  refine ⟨rfl, rfl, rfl, parse_isSome_iff lines, ?_⟩
  intro g hg
  obtain ⟨hlen, hget⟩ := parse_get hg
  refine ⟨hlen, ?_⟩
  intro i l hi
  obtain ⟨row, hrow, hpr⟩ := hget i l hi
  obtain ⟨hrl, hrg⟩ := parseRow_get hpr
  exact ⟨row, hrow, hrl, hrg⟩

theorem parse_spec_witness : (parse ["O#."]).isSome = true :=
  (parse_spec ["O#."]).2.2.2.1.mpr (by decide)

/-- Claim C10 as stated is false: the parser never checks the shape of its
input.  The ragged input `["O", ".."]` and the empty input `[]` are both
accepted (no FormatError), contradicting the claimed rejection. -/
theorem parse_accepts_ragged_cex :
    parse ["O", ".."]
      = some [[TPSpace.RoundStone], [TPSpace.Empty, TPSpace.Empty]] ∧
    parse [] = some [] := by
  refine ⟨by decide, by decide⟩

/-- Claim C10 (amended: the parser performs no shape validation — ragged or
empty inputs whose characters all lie in the alphabet are accepted; only an
invalid character is rejected): every input all of whose characters are in
the alphabet parses successfully, whatever its shape. -/
theorem parse_no_shape_validation (lines : List String)
    (h : ∀ l ∈ lines, ∀ c ∈ l.toList, (c = '.' ∨ c = '#' ∨ c = 'O')) :
    (parse lines).isSome = true :=
  (parse_isSome_iff lines).mpr h

theorem parse_no_shape_validation_witness :
    (parse ["O", ".."]).isSome = true :=
  parse_no_shape_validation ["O", ".."] (by decide)

end Day14
